import Mathlib

/-!
Verification development for the minimark save pipeline.

The Go program (main.go) is shallowly embedded below:

* machine state (the in-memory lock table, the working-directory listing and
  the docs output directory) is passed explicitly;
* `time.Time` instants are modelled as natural numbers (nanoseconds);
  `time.Now().After e` is `e < now` and `time.Now().Before e` is `now < e`;
* Go strings are Lean `String`s (lists of characters; the byte/rune
  distinction is immaterial here because every delimiter the code inspects
  is ASCII);
* the lock-token generator `newToken` is a free parameter `fresh` of any
  operation that may call it;
* `strings.ToLower` / `strings.EqualFold` are modelled with the simple
  character case mapping `Char.toLower`.

The two heading regular expressions of main.go are compiled by hand into
backtracking matchers, following Go's leftmost-first (Perl-style) match
semantics; the derivation of each step is documented at the definitions.
-/

namespace Minimark

/-- Character class of Go's regexp `\s`, namely `[\t\n\f\r ]`. -/
def isWS (c : Char) : Bool :=
  c == ' ' || c == '\t' || c == '\n' || c == (Char.ofNat 12) || c == '\r'

/-- Character class used by `strings.TrimSpace` (`unicode.IsSpace`),
restricted to the code points that actually occur in this development:
ASCII whitespace including vertical tab, plus NEL and NBSP. -/
def isUniSpace (c : Char) : Bool :=
  c == ' ' || c == '\t' || c == '\n' || c == (Char.ofNat 11) ||
  c == (Char.ofNat 12) || c == '\r' || c == (Char.ofNat 133) || c == (Char.ofNat 160)

/-- Simple character lowercase map, modelling Go's per-rune `unicode.ToLower`. -/
def charLowerGo (c : Char) : Char := c.toLower

/-- `strings.ToLower`. -/
def toLowerStr (s : String) : String := String.mk (s.data.map charLowerGo)

/-- `strings.EqualFold`, modelled as equality after simple case folding. -/
def eqFoldGo (a b : String) : Bool := a.data.map charLowerGo == b.data.map charLowerGo

/-- `strings.TrimSpace`: remove leading and trailing white space. -/
def trimSpaceGo (s : String) : String :=
  String.mk (((s.data.dropWhile isUniSpace).reverse.dropWhile isUniSpace).reverse)

/-- Path separator test: `os.IsPathSeparator` on Unix holds only for `/`. -/
def isSep (c : Char) : Bool := c == '/'

/-- First step of `filepath.Base`: strip trailing path separators. -/
def dropTrailingSeps (cs : List Char) : List Char := (cs.reverse.dropWhile isSep).reverse

/-- Last step of `filepath.Base`: the part after the last separator. -/
def afterLastSep (cs : List Char) : List Char :=
  (cs.reverse.takeWhile (fun c => !(isSep c))).reverse

/-- `filepath.Base`: empty path gives ".", a path of only separators gives "/",
otherwise the last path element with trailing separators removed. -/
def basePath (s : String) : String :=
  if s = "" then "."
  else if afterLastSep (dropTrailingSeps s.data) = [] then "/"
  else String.mk (afterLastSep (dropTrailingSeps s.data))

/-! ## Lock registry (main.go lines 356-462)

`locks` is a Go `map[string]lockInfo`; it is modelled as an association list
with pairwise distinct keys (lookup takes the first hit, assignment replaces
in place or appends, delete removes every hit, which on a map-built list is
the single hit). -/

/-- The `lockInfo` record: owning token and expiry instant. -/
structure LockInfo where
  token : String
  expires : Nat
deriving DecidableEq, Repr

/-- The global `locks` map. -/
abbrev LockTable := List (String × LockInfo)

/-- `lockTTL = time.Second`, in nanoseconds. -/
def lockTTL : Nat := 1000000000

/-- Go map read `li, ok := locks[name]`. -/
def lookupTbl : LockTable → String → Option LockInfo
  | [], _ => none
  | (k, v) :: rest, n => if k = n then some v else lookupTbl rest n

/-- Go map assignment `locks[name] = li`. -/
def setTbl : LockTable → String → LockInfo → LockTable
  | [], n, li => [(n, li)]
  | (k, v) :: rest, n, li => if k = n then (n, li) :: rest else (k, v) :: setTbl rest n li

/-- Go map removal `delete(locks, name)`. -/
def eraseTbl : LockTable → String → LockTable
  | [], _ => []
  | (k, v) :: rest, n => if k = n then eraseTbl rest n else (k, v) :: eraseTbl rest n

/-- Outcome of the `/lock` handler (transport details elided: the method
check is outside the modelled scope, and `missing` is the 400 branch). -/
inductive LockResp where
  | created (tok : String)
  | refreshed (tok : String)
  | locked
  | missing
deriving DecidableEq, Repr

/-- The acquire tail of `handleLock`: choose the caller's token or a fresh
one, install a lock with expiry `now + lockTTL`, answer 201 Created. -/
def acquireNew (tbl : LockTable) (name reqToken fresh : String) (now : Nat) :
    LockResp × LockTable :=
  (LockResp.created (if reqToken = "" then fresh else reqToken),
   setTbl tbl name ⟨if reqToken = "" then fresh else reqToken, now + lockTTL⟩)

/-- `handleLock` (main.go lines 370-408). `fileParam` is the `file` query
value, `reqToken` the `X-Lock` header, `fresh` the token `newToken` would
produce if called. -/
def handleLock (tbl : LockTable) (now : Nat) (fileParam reqToken fresh : String) :
    LockResp × LockTable :=
  if basePath fileParam = "" then (LockResp.missing, tbl)
  else
    match lookupTbl tbl (basePath fileParam) with
    | some li =>
      if now < li.expires then
        if reqToken ≠ "" ∧ reqToken = li.token then
          (LockResp.refreshed li.token,
           setTbl tbl (basePath fileParam) ⟨li.token, now + lockTTL⟩)
        else (LockResp.locked, tbl)
      else acquireNew tbl (basePath fileParam) reqToken fresh now
    | none => acquireNew tbl (basePath fileParam) reqToken fresh now

/-- `handleUnlock` (main.go lines 410-425): `true` is 204 No Content,
`false` the 423 "not lock owner" answer. -/
def handleUnlock (tbl : LockTable) (fileParam tok : String) : Bool × LockTable :=
  match lookupTbl tbl (basePath fileParam) with
  | some li =>
    if li.token = tok then (true, eraseTbl tbl (basePath fileParam)) else (false, tbl)
  | none => (false, tbl)

/-- `hasValidLock` (main.go lines 427-441), with its lazy-eviction side
effect on the table. -/
def hasValidLock (tbl : LockTable) (now : Nat) (name tok : String) : Bool × LockTable :=
  match lookupTbl tbl (basePath name) with
  | none => (false, tbl)
  | some li =>
    if li.expires < now then (false, eraseTbl tbl (basePath name))
    else (li.token == tok, tbl)

/-- `transferLock` (main.go lines 443-456). -/
def transferLock (tbl : LockTable) (now : Nat) (oldName newName tok : String) : LockTable :=
  match lookupTbl tbl (basePath oldName) with
  | none => tbl
  | some li =>
    if li.token ≠ tok ∨ li.expires < now then tbl
    else setTbl (eraseTbl tbl (basePath oldName)) (basePath newName)
      ⟨li.token, now + lockTTL⟩

/-- Invariant: every key in the lock table is a flat base name. -/
def keysNormalized (tbl : LockTable) : Prop := ∀ e ∈ tbl, basePath e.1 = e.1

/-! ## Title extractor (main.go lines 212-228)

`atxH1Re = (?m)^\s*#\s+(.+?)\s*$` and
`setextH1Re = (?m)^\s*([^\r\n]+?)\s*\r?\n[ \t]*=+[ \t]*$` are compiled into
backtracking matchers.  Go's `FindStringSubmatchIndex` scans candidate start
positions left to right; the leading `^` restricts them to line starts.  For
each quantifier, a greedy loop tries the longest repetition first and a lazy
loop the shortest; a repetition over a character class can only hand over to
an adjacent literal at the unique position where that literal sits at the end
of the class run, which is what lets each quantifier become a single scan. -/

/-- Does `\s*$` (multiline `$`) match somewhere along this suffix: some stop
of the whitespace run is the end of the text or sits before a newline. -/
def wsThenEol : List Char → Bool
  | [] => true
  | c :: rest => if c = '\n' then true else if isWS c then wsThenEol rest else false

/-- Minimal length of the lazy `(.+?)` capture such that `\s*$` matches after
it; `.` does not match a newline. -/
def atxCapLen : List Char → Option Nat
  | [] => none
  | c :: rest =>
    if c = '\n' then none
    else if wsThenEol rest then some 1
    else match atxCapLen rest with
      | some n => some (n + 1)
      | none => none

/-- Greedy `\s+` after the `#`: try consuming `r, r-1, ..., 1` whitespace
characters, the first count whose continuation succeeds wins.  Returns the
consumed count and the capture length. -/
def atxPlusGo (u2 : List Char) : Nat → Option (Nat × Nat)
  | 0 => none
  | r + 1 =>
    match atxCapLen (u2.drop (r + 1)) with
    | some L => some (r + 1, L)
    | none => atxPlusGo u2 r

/-- Match `\s*#\s+(.+?)\s*$` at a line start; returns capture bounds relative
to the match start.  The leading greedy `\s*` can only stop where the literal
`#` follows, i.e. at the end of the maximal whitespace run. -/
def atxAt (u : List Char) : Option (Nat × Nat) :=
  match u.drop (u.takeWhile isWS).length with
  | '#' :: u2 =>
    match atxPlusGo u2 ((u2.takeWhile isWS).length) with
    | some (r, L) =>
      some ((u.takeWhile isWS).length + 1 + r, (u.takeWhile isWS).length + 1 + r + L)
    | none => none
  | _ => none

/-- Left-to-right scan over candidate start positions (line starts). -/
def scanATX : List Char → Nat → Bool → Option (Nat × Nat × Nat)
  | [], _, _ => none
  | c :: rest, p, atLS =>
    if atLS then
      match atxAt (c :: rest) with
      | some (a, b) => some (p, p + a, p + b)
      | none => scanATX rest (p + 1) (c == '\n')
    else scanATX rest (p + 1) (c == '\n')

/-- `atxH1Re.FindStringSubmatchIndex`: match start and capture bounds of the
leftmost ATX heading match. -/
def findATX (cs : List Char) : Option (Nat × Nat × Nat) := scanATX cs 0 true

/-- Does `[ \t]*=+[ \t]*$` match from this position (the start of the line
after the newline)?  Each greedy class run hands over at its maximal end. -/
def eqLineMatches (u : List Char) : Bool :=
  match u.dropWhile (fun c => c == ' ' || c == '\t') with
  | '=' :: u2 =>
    ((u2.dropWhile (fun c => c == '=')).dropWhile (fun c => c == ' ' || c == '\t')).isEmpty
    || (((u2.dropWhile (fun c => c == '=')).dropWhile
          (fun c => c == ' ' || c == '\t')).head? == some '\n')
  | _ => false

/-- Does `\s*\r?\n[ \t]*=+[ \t]*$` match somewhere along this suffix: some
stop of the whitespace run is followed by an optional `\r`, a `\n`, and an
equals-sign line. -/
def setextTail : List Char → Bool
  | [] => false
  | c :: rest =>
    (if c = '\n' then eqLineMatches rest
     else if c = '\r' then
       match rest with
       | '\n' :: u2 => eqLineMatches u2
       | _ => false
     else false)
    || (isWS c && setextTail rest)

/-- Minimal length of the lazy `([^\r\n]+?)` capture such that the setext
tail matches after it. -/
def setextCapLen : List Char → Option Nat
  | [] => none
  | c :: rest =>
    if c = '\r' ∨ c = '\n' then none
    else if setextTail rest then some 1
    else match setextCapLen rest with
      | some n => some (n + 1)
      | none => none

/-- Greedy leading `\s*` of the setext pattern: try capture starts
`a, a-1, ..., 0` characters into the whitespace run.  Returns the capture
bounds `(a, a + L)` relative to the match start. -/
def setextStarGo (u : List Char) : Nat → Option (Nat × Nat)
  | 0 =>
    match setextCapLen u with
    | some L => some (0, 0 + L)
    | none => none
  | a + 1 =>
    match setextCapLen (u.drop (a + 1)) with
    | some L => some (a + 1, (a + 1) + L)
    | none => setextStarGo u a

/-- Match the setext pattern at a line start; relative capture bounds. -/
def setextAt (u : List Char) : Option (Nat × Nat) :=
  setextStarGo u (u.takeWhile isWS).length

/-- Left-to-right scan for the setext pattern. -/
def scanSetext : List Char → Nat → Bool → Option (Nat × Nat × Nat)
  | [], _, _ => none
  | c :: rest, p, atLS =>
    if atLS then
      match setextAt (c :: rest) with
      | some (a, b) => some (p, p + a, p + b)
      | none => scanSetext rest (p + 1) (c == '\n')
    else scanSetext rest (p + 1) (c == '\n')

/-- `setextH1Re.FindStringSubmatchIndex`. -/
def findSetext (cs : List Char) : Option (Nat × Nat × Nat) := scanSetext cs 0 true

/-- The Go slice `s[i:j]`. -/
def sliceStr (s : String) (i j : Nat) : String := String.mk ((s.data.drop i).take (j - i))

/-- `extractTitle` (main.go lines 215-228): the earlier match wins; when both
regexes match at the same offset the code's comparison `atxIdx[0] <
setextIdx[0]` fails and the setext capture is used. -/
def extractTitle (s : String) : String :=
  match findATX s.data, findSetext s.data with
  | none, none => ""
  | some (_, a1, a2), none => trimSpaceGo (sliceStr s a1 a2)
  | none, some (_, b1, b2) => trimSpaceGo (sliceStr s b1 b2)
  | some (pa, a1, a2), some (ps, b1, b2) =>
    if pa < ps then trimSpaceGo (sliceStr s a1 a2)
    else trimSpaceGo (sliceStr s b1 b2)

/-! ## Slug generator (main.go lines 254-272) -/

/-- The character test of the slugify loop: `[a-z0-9]`. -/
def isSlugChar (c : Char) : Bool :=
  if ('a' ≤ c ∧ c ≤ 'z') ∨ ('0' ≤ c ∧ c ≤ '9') then true else false

/-- The builder loop of `slugify`, with its `prevHyphen` flag. -/
def slugLoop : List Char → Bool → List Char
  | [], _ => []
  | c :: rest, prevHyphen =>
    if isSlugChar c then c :: slugLoop rest false
    else if prevHyphen then slugLoop rest true
    else '-' :: slugLoop rest true

/-- `strings.Trim(out, "-")`. -/
def trimHyphens (l : List Char) : List Char :=
  ((l.dropWhile (fun c => c == '-')).reverse.dropWhile (fun c => c == '-')).reverse

/-- `slugify` (main.go lines 254-272). -/
def slugify (s : String) : String :=
  String.mk (trimHyphens (slugLoop (s.data.map charLowerGo) false))

/-- `decideFilenameFromContent` (main.go lines 232-252). -/
def decideFilenameFromContent (current : String) (content : String) : String :=
  if toLowerStr (basePath current) = "index.md" ∨ toLowerStr (basePath current) = "readme.md"
  then basePath current
  else if extractTitle content = "" then basePath current
  else if slugify (extractTitle content) = "" then basePath current
  else if slugify (extractTitle content) ++ ".md" = basePath current then basePath current
  else slugify (extractTitle content) ++ ".md"

/-! ## Decimal rendering

`fmt.Sprintf("%s-%d%s", ...)` renders the counter in decimal; the Lean model
uses `Nat.repr`.  Injectivity of the rendering is what makes the candidate
names of `uniqueAvailableName` pairwise distinct, which in turn bounds the
search loop. -/

/-- Numeric value of a decimal digit character. -/
def digitVal (c : Char) : Nat := c.toNat - 48

/-- Value of a decimal digit string, most significant digit first. -/
def strVal (l : List Char) : Nat := l.foldl (fun a c => a * 10 + digitVal c) 0

/-! ## Filesystem model and name resolver -/

/-- A directory listing: entry name and `IsDir` flag. -/
abbrev DirListing := List (String × Bool)

/-- `os.Stat` succeeding: an entry (file or directory) of this exact name. -/
def statExists (fs : DirListing) (n : String) : Bool := fs.any (fun e => e.1 == n)

/-- `fileExistsLower` (main.go lines 195-210): a non-directory entry whose
lowercased name equals the lowercased argument. -/
def fileExistsLower (fs : DirListing) (name : String) : Bool :=
  fs.any (fun e => !e.2 && (toLowerStr e.1 == toLowerStr name))

/-- The backwards scan of `filepath.Ext`: walk the reversed name with `acc`
holding the characters already passed (in forward order); a separator stops
the scan, a dot returns the suffix from the dot on. -/
def extScan : List Char → List Char → List Char
  | [], _ => []
  | c :: rest, acc =>
    if isSep c then [] else if c = '.' then c :: acc else extScan rest (c :: acc)

/-- `filepath.Ext`. -/
def extGo (m : String) : String := String.mk (extScan m.data.reverse [])

/-- `strings.TrimSuffix`. -/
def trimSuffixGo (s suf : String) : String :=
  if suf.data.isSuffixOf s.data then String.mk (s.data.take (s.data.length - suf.data.length))
  else s

/-- The candidate `fmt.Sprintf("%s-%d%s", base, i, ext)` built by the search
loop of `uniqueAvailableName` for an (already `filepath.Base`d) name. -/
def candName (preferred : String) (i : Nat) : String :=
  trimSuffixGo preferred (extGo preferred) ++ "-" ++ Nat.repr i ++ extGo preferred

/-- The `for i := 1; ; i++` search of `uniqueAvailableName`.  The Go loop is
unbounded; it is run here with fuel `fs.length + 1`, which `uniqueLoop_finds`
shows is exhaustive (the fallback arm is unreachable). -/
def uniqueLoop (fs : DirListing) (preferred : String) : Nat → Nat → String
  | 0, i => candName preferred i
  | fuel + 1, i =>
    if statExists fs (candName preferred i) then uniqueLoop fs preferred fuel (i + 1)
    else candName preferred i

/-- `uniqueAvailableName` (main.go lines 276-289). -/
def uniqueAvailableName (fs : DirListing) (preferred : String) : String :=
  if statExists fs (basePath preferred) then
    uniqueLoop fs (basePath preferred) (fs.length + 1) 1
  else basePath preferred

/-! ## Export naming and the save pipeline (main.go lines 96-164)

The pipeline is modelled on a state holding the working-directory listing,
the names present in the `docs` output directory, and the lock table.  The
transport-level branches that the claims do not touch are fixed to their
success outcome: the request is a POST, the body is readable, and disk
writes and the external renderer succeed (renderer failures are logged and
do not change the response). -/

/-- `htmlOutNameFor` (main.go lines 159-164). -/
def htmlOutNameFor (fs : DirListing) (mdBase : String) : String :=
  if eqFoldGo mdBase "readme.md" && !(fileExistsLower fs "index.md") then "index.html"
  else trimSuffixGo mdBase (extGo mdBase) ++ ".html"

/-- Machine state touched by a save. -/
structure SaveState where
  cwd : DirListing
  docs : List String
  locks : LockTable
deriving DecidableEq, Repr

/-- Outcome of the `/save` handler (the 400 unreadable-body, 405 and 500
branches are outside the modelled scope). -/
inductive SaveResp where
  | noContent (finalName : String)
  | invalidName
  | lockDenied
deriving DecidableEq, Repr

/-- The incoming-name resolution of `handleSave` (main.go lines 101-107):
query parameter, else `X-Filename` header, else `index.md`. -/
def resolveIncomingName (q hdr : String) : String :=
  if q ≠ "" then q else if hdr ≠ "" then hdr else "index.md"

/-- `os.WriteFile`: creates the entry if absent (content is not modelled). -/
def writeFileFS (fs : DirListing) (n : String) : DirListing :=
  if statExists fs n then fs else fs ++ [(n, false)]

/-- `os.Remove` in the working directory (best-effort). -/
def removeFileFS (fs : DirListing) (n : String) : DirListing :=
  fs.filter (fun e => !(e.1 == n))

/-- `os.Remove` of a rendered output under `docs/` (best-effort). -/
def removeDoc (docs : List String) (n : String) : List String :=
  docs.filter (fun d => !(d == n))

/-- `exportMarkdownTo` writing `docs/<n>`. -/
def writeDoc (docs : List String) (n : String) : List String :=
  if docs.contains n then docs else docs ++ [n]

/-- `handleSave` (main.go lines 96-153).  `q` is the `file` query value,
`hdr` the `X-Filename` header, `tok` the `X-Lock` header; `cmark` tells
whether a converter was discovered at startup. -/
def handleSave (st : SaveState) (now : Nat) (q hdr body tok : String) (cmark : Bool) :
    SaveResp × SaveState :=
  if basePath (resolveIncomingName q hdr) ≠ resolveIncomingName q hdr then
    (SaveResp.invalidName, st)
  else
    match hasValidLock st.locks now (resolveIncomingName q hdr) tok with
    | (false, locks1) => (SaveResp.lockDenied, { st with locks := locks1 })
    | (true, locks1) =>
      let name := resolveIncomingName q hdr
      let target0 := decideFilenameFromContent name body
      let target := if target0 ≠ name then uniqueAvailableName st.cwd target0 else target0
      let cwd1 := writeFileFS st.cwd target
      let cwd2 := if target ≠ name then removeFileFS cwd1 name else cwd1
      let docs1 :=
        if target ≠ name then removeDoc st.docs (htmlOutNameFor cwd2 (basePath name))
        else st.docs
      let docs2 :=
        if cmark && eqFoldGo (extGo target) ".md" then
          writeDoc docs1 (htmlOutNameFor cwd2 (basePath target))
        else docs1
      (SaveResp.noContent (basePath target), { cwd := cwd2, docs := docs2, locks := locks1 })

/-! ## Spec-side formulations used by refinement claims -/

/-- The spec's phrasing of the slug transform: replace each maximal run of
non-`[a-z0-9]` characters by a single hyphen (run-based formulation, to be
compared with the flag-based loop of the code). -/
def collapseRuns : List Char → List Char
  | [] => []
  | c :: rest =>
    if isSlugChar c then c :: collapseRuns rest
    else '-' :: collapseRuns (rest.dropWhile (fun d => !(isSlugChar d)))
termination_by l => l.length
decreasing_by
  all_goals simp only [List.length_cons]
  · omega
  · have := (List.dropWhile_sublist (l := rest) (fun d => !(isSlugChar d))).length_le
    omega

/-- The spec's `Slugify`: lower-case, collapse non-alphanumeric runs to a
hyphen, strip leading and trailing hyphens. -/
def slugifySpec (s : String) : String :=
  String.mk (trimHyphens (collapseRuns (s.data.map charLowerGo)))

theorem takeWhile_all {p : Char → Bool} : ∀ {l : List Char}, (∀ c ∈ l, p c = true) →
    l.takeWhile p = l
  | [], _ => rfl
  | c :: l, h => by
    simp only [List.takeWhile_cons, h c (List.mem_cons_self c l), if_pos]
    exact congrArg (c :: ·) (takeWhile_all fun d hd => h d (List.mem_cons_of_mem c hd))

theorem dropWhile_all_not {p : Char → Bool} : ∀ {l : List Char}, (∀ c ∈ l, p c = false) →
    l.dropWhile p = l
  | [], _ => rfl
  | c :: l, h => by
    simp only [List.dropWhile_cons, h c (List.mem_cons_self c l)]
    simp

theorem mem_takeWhile {p : Char → Bool} : ∀ {l : List Char} {c : Char},
    c ∈ l.takeWhile p → p c = true
  | [], _, h => by simp at h
  | d :: l, c, h => by
    by_cases hd : p d
    · rw [List.takeWhile_cons, if_pos hd] at h
      rcases List.mem_cons.mp h with h | h
      · exact h ▸ hd
      · exact mem_takeWhile h
    · rw [List.takeWhile_cons, if_neg hd] at h
      simp at h

/-- Every character of `afterLastSep cs` is a non-separator. -/
theorem afterLastSep_no_sep {cs : List Char} {c : Char} (h : c ∈ afterLastSep cs) :
    isSep c = false := by
  unfold afterLastSep at h
  rw [List.mem_reverse] at h
  have := mem_takeWhile h
  simpa using this

/-- `filepath.Base` never returns the empty string. -/
theorem basePath_ne_empty (s : String) : basePath s ≠ "" := by
  unfold basePath
  by_cases h1 : s = ""
  · simp [h1]
  · rw [if_neg h1]
    by_cases h2 : afterLastSep (dropTrailingSeps s.data) = []
    · simp [h2]
    · rw [if_neg h2]
      intro hc
      exact h2 (congrArg String.data hc)

/-- A nonempty separator-free list is untouched by both trimming helpers. -/
theorem base_helpers_id {l : List Char} (h : ∀ c ∈ l, isSep c = false) :
    dropTrailingSeps l = l ∧ afterLastSep l = l := by
  constructor
  · unfold dropTrailingSeps
    rw [dropWhile_all_not (by intro c hc; exact h c (List.mem_reverse.mp hc))]
    exact List.reverse_reverse l
  · unfold afterLastSep
    rw [takeWhile_all (by intro c hc; simp [h c (List.mem_reverse.mp hc)])]
    exact List.reverse_reverse l

/-- `filepath.Base` is idempotent. -/
theorem basePath_idem (s : String) : basePath (basePath s) = basePath s := by
  by_cases h1 : s = ""
  · subst h1; rfl
  · unfold basePath
    rw [if_neg h1]
    by_cases h2 : afterLastSep (dropTrailingSeps s.data) = []
    · simp only [h2, if_pos rfl]
      rfl
    · rw [if_neg h2]
      have hns : ∀ c ∈ afterLastSep (dropTrailingSeps s.data), isSep c = false :=
        fun c hc => afterLastSep_no_sep hc
      have hid := base_helpers_id hns
      have hmk : (String.mk (afterLastSep (dropTrailingSeps s.data))) ≠ "" := by
        intro hc; exact h2 (congrArg String.data hc)
      rw [if_neg hmk]
      have hdata : (String.mk (afterLastSep (dropTrailingSeps s.data))).data
          = afterLastSep (dropTrailingSeps s.data) := rfl
      rw [hdata, hid.1, hid.2, if_neg h2]

/-- A nonempty separator-free string is its own base name. -/
theorem basePath_eq_self {s : String} (h1 : s ≠ "") (h2 : ∀ c ∈ s.data, isSep c = false) :
    basePath s = s := by
  unfold basePath
  rw [if_neg h1]
  have hid := base_helpers_id h2
  rw [hid.1, hid.2]
  have hne : s.data ≠ [] := by
    intro hc; exact h1 (String.ext hc)
  rw [if_neg hne]

theorem lookup_erase_self (n : String) : ∀ tbl : LockTable,
    lookupTbl (eraseTbl tbl n) n = none
  | [] => rfl
  | (k, v) :: rest => by
    by_cases h : k = n
    · simp only [eraseTbl, if_pos h]
      exact lookup_erase_self n rest
    · simp only [eraseTbl, if_neg h, lookupTbl, if_neg h]
      exact lookup_erase_self n rest

theorem mem_eraseTbl {e : String × LockInfo} {n : String} : ∀ {tbl : LockTable},
    e ∈ eraseTbl tbl n → e ∈ tbl
  | [], h => by simp [eraseTbl] at h
  | (k, v) :: rest, h => by
    by_cases hk : k = n
    · rw [eraseTbl, if_pos hk] at h
      exact List.mem_cons_of_mem _ (mem_eraseTbl h)
    · rw [eraseTbl, if_neg hk] at h
      rcases List.mem_cons.mp h with h | h
      · exact h ▸ List.mem_cons_self _ _
      · exact List.mem_cons_of_mem _ (mem_eraseTbl h)

theorem mem_setTbl {e : String × LockInfo} {n : String} {li : LockInfo} :
    ∀ {tbl : LockTable}, e ∈ setTbl tbl n li → e ∈ tbl ∨ e = (n, li)
  | [], h => by
    rw [setTbl] at h
    exact Or.inr (List.mem_singleton.mp h)
  | (k, v) :: rest, h => by
    by_cases hk : k = n
    · rw [setTbl, if_pos hk] at h
      rcases List.mem_cons.mp h with h | h
      · exact Or.inr h
      · exact Or.inl (List.mem_cons_of_mem _ h)
    · rw [setTbl, if_neg hk] at h
      rcases List.mem_cons.mp h with h | h
      · exact Or.inl (h ▸ List.mem_cons_self _ _)
      · rcases mem_setTbl h with h | h
        · exact Or.inl (List.mem_cons_of_mem _ h)
        · exact Or.inr h

theorem keysNormalized_erase {tbl : LockTable} {n : String} (h : keysNormalized tbl) :
    keysNormalized (eraseTbl tbl n) :=
  fun e he => h e (mem_eraseTbl he)

theorem keysNormalized_set {tbl : LockTable} {n : String} {li : LockInfo}
    (h : keysNormalized tbl) (hn : basePath n = n) : keysNormalized (setTbl tbl n li) := by
  intro e he
  rcases mem_setTbl he with he | he
  · exact h e he
  · rw [he]
    exact hn

theorem toDigitsCore_append : ∀ (fuel n : Nat) (ds : List Char),
    Nat.toDigitsCore 10 fuel n ds = Nat.toDigitsCore 10 fuel n [] ++ ds
  | 0, n, ds => by simp [Nat.toDigitsCore]
  | fuel + 1, n, ds => by
    simp only [Nat.toDigitsCore]
    by_cases h : n / 10 = 0
    · simp [h]
    · simp only [if_neg h]
      rw [toDigitsCore_append fuel (n / 10) ((n % 10).digitChar :: ds),
        toDigitsCore_append fuel (n / 10) [(n % 10).digitChar]]
      simp

theorem digitVal_digitChar {d : Nat} (h : d < 10) : digitVal (Nat.digitChar d) = d := by
  interval_cases d <;> decide

theorem strVal_snoc (l : List Char) (c : Char) :
    strVal (l ++ [c]) = 10 * strVal l + digitVal c := by
  simp [strVal, List.foldl_append, Nat.mul_comm]

theorem strVal_toDigitsCore : ∀ (fuel n : Nat), n < 10 ^ fuel →
    strVal (Nat.toDigitsCore 10 fuel n []) = n
  | 0, n, h => by
    simp only [Nat.pow_zero, Nat.lt_one_iff] at h
    subst h
    simp [Nat.toDigitsCore, strVal]
  | fuel + 1, n, h => by
    simp only [Nat.toDigitsCore]
    by_cases h0 : n / 10 = 0
    · have hn : n < 10 := by omega
      simp only [if_pos h0]
      show strVal ([] ++ [(n % 10).digitChar]) = n
      rw [strVal_snoc, digitVal_digitChar (Nat.mod_lt n (by omega))]
      simp [strVal, Nat.mod_eq_of_lt hn]
    · simp only [if_neg h0]
      rw [toDigitsCore_append, strVal_snoc,
        strVal_toDigitsCore fuel (n / 10) (by
          rw [Nat.pow_succ, Nat.mul_comm] at h
          exact Nat.div_lt_of_lt_mul h),
        digitVal_digitChar (Nat.mod_lt n (by omega))]
      omega

theorem lt_ten_pow_succ (n : Nat) : n < 10 ^ (n + 1) :=
  Nat.lt_of_lt_of_le (Nat.lt_two_pow n)
    (Nat.le_trans (Nat.pow_le_pow_left (by omega) n)
      (Nat.pow_le_pow_right (by omega) (Nat.le_succ n)))

theorem strVal_repr (n : Nat) : strVal (Nat.repr n).data = n := by
  show strVal ((Nat.toDigits 10 n).asString).data = n
  have : ((Nat.toDigits 10 n).asString).data = Nat.toDigits 10 n := rfl
  rw [this]
  exact strVal_toDigitsCore (n + 1) n (lt_ten_pow_succ n)

theorem repr_injective : Function.Injective Nat.repr := by
  intro m n h
  have hd : (Nat.repr m).data = (Nat.repr n).data := congrArg String.data h
  have := congrArg strVal hd
  rwa [strVal_repr, strVal_repr] at this

theorem candName_injective (p : String) : Function.Injective (candName p) := by
  intro i j h
  unfold candName at h
  have hd := congrArg String.data h
  simp only [String.data_append] at hd
  have h1 := List.append_cancel_right hd
  have h2 := List.append_cancel_left h1
  exact repr_injective (String.ext h2)

theorem statExists_iff (fs : DirListing) (n : String) :
    statExists fs n = true ↔ n ∈ fs.map Prod.fst := by
  simp only [statExists, List.any_eq_true, List.mem_map, beq_iff_eq]

theorem exists_free_cand (fs : DirListing) (p : String) :
    ∃ j, 1 ≤ j ∧ j < fs.length + 2 ∧ statExists fs (candName p j) = false := by
  by_contra hc
  push_neg at hc
  have hall : ∀ j, 1 ≤ j → j < fs.length + 2 → statExists fs (candName p j) = true := by
    intro j h1 h2
    by_cases hb : statExists fs (candName p j) = true
    · exact hb
    · exact absurd (by simpa using hb) (hc j h1 h2)
  have hinj : Function.Injective (fun t : Fin (fs.length + 1) => candName p (t.1 + 1)) := by
    intro a b hab
    have := candName_injective p hab
    exact Fin.ext (by omega)
  have hsub : (Finset.univ.image (fun t : Fin (fs.length + 1) => candName p (t.1 + 1)))
      ⊆ (fs.map Prod.fst).toFinset := by
    intro n hn
    rcases Finset.mem_image.mp hn with ⟨t, _, rfl⟩
    rw [List.mem_toFinset]
    exact (statExists_iff fs _).mp (hall (t.1 + 1) (by omega) (by omega))
  have hcard := Finset.card_le_card hsub
  rw [Finset.card_image_of_injective _ hinj, Finset.card_univ, Fintype.card_fin] at hcard
  have := List.toFinset_card_le (fs.map Prod.fst)
  rw [List.length_map] at this
  omega

theorem uniqueLoop_finds (fs : DirListing) (p : String) : ∀ (fuel i : Nat),
    (∃ j, i ≤ j ∧ j < i + fuel ∧ statExists fs (candName p j) = false) →
    ∃ k, i ≤ k ∧ uniqueLoop fs p fuel i = candName p k ∧
      statExists fs (candName p k) = false ∧
      ∀ j, i ≤ j → j < k → statExists fs (candName p j) = true
  | 0, i, h => by
    rcases h with ⟨j, h1, h2, _⟩
    omega
  | fuel + 1, i, h => by
    by_cases he : statExists fs (candName p i) = true
    · have hnext : ∃ j, i + 1 ≤ j ∧ j < (i + 1) + fuel ∧
          statExists fs (candName p j) = false := by
        rcases h with ⟨j, h1, h2, h3⟩
        have : j ≠ i := by
          intro hji
          simp [hji, he] at h3
        exact ⟨j, by omega, by omega, h3⟩
      rcases uniqueLoop_finds fs p fuel (i + 1) hnext with ⟨k, hk1, hk2, hk3, hk4⟩
      refine ⟨k, by omega, ?_, hk3, ?_⟩
      · rw [uniqueLoop, if_pos he]
        exact hk2
      · intro j hj1 hj2
        by_cases hji : j = i
        · rw [hji]; exact he
        · exact hk4 j (by omega) hj2
    · have he' : statExists fs (candName p i) = false := by simpa using he
      refine ⟨i, Nat.le_refl i, ?_, he', fun j hj1 hj2 => by omega⟩
      rw [uniqueLoop, if_neg (by simp [he'])]

/-- The name `uniqueAvailableName` returns never names an existing entry. -/
theorem unique_not_exists (fs : DirListing) (p : String) :
    statExists fs (uniqueAvailableName fs p) = false := by
  unfold uniqueAvailableName
  by_cases h : statExists fs (basePath p) = true
  · rw [if_pos h]
    have hex : ∃ j, 1 ≤ j ∧ j < 1 + (fs.length + 1) ∧
        statExists fs (candName (basePath p) j) = false := by
      rcases exists_free_cand fs (basePath p) with ⟨j, h1, h2, h3⟩
      exact ⟨j, h1, by omega, h3⟩
    rcases uniqueLoop_finds fs (basePath p) (fs.length + 1) 1 hex with ⟨k, _, hk2, hk3, _⟩
    rw [hk2]
    exact hk3
  · have h' : statExists fs (basePath p) = false := by simpa using h
    rw [if_neg (by simp [h'])]
    exact h'

theorem dropWhile_all_true {p : Char → Bool} : ∀ {l : List Char},
    (∀ c ∈ l, p c = true) → l.dropWhile p = []
  | [], _ => rfl
  | c :: l, h => by
    rw [List.dropWhile_cons, if_pos (h c (List.mem_cons_self c l))]
    exact dropWhile_all_true fun d hd => h d (List.mem_cons_of_mem c hd)

theorem slugLoop_collapse : ∀ l : List Char,
    slugLoop l false = collapseRuns l ∧
    slugLoop l true = collapseRuns (l.dropWhile (fun d => !(isSlugChar d)))
  | [] => by
    constructor <;> simp [slugLoop, collapseRuns]
  | c :: rest => by
    rcases slugLoop_collapse rest with ⟨ihf, iht⟩
    by_cases hc : isSlugChar c = true
    · refine ⟨?_, ?_⟩
      · rw [slugLoop, collapseRuns]
        simp [hc, ihf]
      · rw [List.dropWhile_cons]
        simp only [hc, Bool.not_true, Bool.false_eq_true, if_false]
        rw [slugLoop, collapseRuns]
        simp [hc, ihf]
    · have hc' : isSlugChar c = false := by simpa using hc
      refine ⟨?_, ?_⟩
      · rw [slugLoop, collapseRuns]
        simp [hc', iht]
      · rw [List.dropWhile_cons]
        simp only [hc', Bool.not_false, if_true]
        rw [slugLoop]
        simp [hc', iht]

/-! ## Claim theorems -/

/-- C2: when a live (unexpired) lock for a name exists and the presented
token differs from its owner token, `handleLock` answers 423 Locked and
returns the lock table unchanged — the same list, hence the same entry for
the name and no entry added, removed or modified. -/
theorem acquire_refused_no_mutation (tbl : LockTable) (now : Nat)
    (n p fresh : String) (li : LockInfo)
    (hlook : lookupTbl tbl (basePath n) = some li)
    (hlive : now < li.expires) (hne : p ≠ li.token) :
    handleLock tbl now n p fresh = (LockResp.locked, tbl) := by
  unfold handleLock
  rw [if_neg (basePath_ne_empty n)]
  simp only [hlook]
  rw [if_pos hlive, if_neg (fun hc => hne hc.2)]

theorem acquire_refused_no_mutation_witness :
    handleLock [("a.md", ⟨"t", 100⟩)] 50 "a.md" "p" "f"
      = (LockResp.locked, [("a.md", ⟨"t", 100⟩)]) :=
  acquire_refused_no_mutation [("a.md", ⟨"t", 100⟩)] 50 "a.md" "p" "f" ⟨"t", 100⟩
    (by decide) (by decide) (by decide)

/-- C3: `hasValidLock` answers true exactly when a lock is on file for the
(normalized) name, is unexpired (`now` not strictly after the expiry), and
its token equals the presented token; and when the lock on file is expired,
the call deletes it from the table and answers false. -/
theorem validate_iff_and_evicts (tbl : LockTable) (now : Nat) (name tok : String) :
    ((hasValidLock tbl now name tok).1 = true ↔
      ∃ li, lookupTbl tbl (basePath name) = some li ∧ now ≤ li.expires ∧ li.token = tok)
    ∧ (∀ li, lookupTbl tbl (basePath name) = some li → li.expires < now →
        hasValidLock tbl now name tok = (false, eraseTbl tbl (basePath name)) ∧
        lookupTbl (eraseTbl tbl (basePath name)) (basePath name) = none) := by
  constructor
  · unfold hasValidLock
    cases hl : lookupTbl tbl (basePath name) with
    | none => simp
    | some li =>
      dsimp only
      by_cases hexp : li.expires < now
      · rw [if_pos hexp]
        constructor
        · intro hc
          simp at hc
        · rintro ⟨li', hli', hle, _⟩
          injection hli' with h
          rw [h] at hexp
          omega
      · rw [if_neg hexp]
        simp only []
        rw [beq_iff_eq]
        constructor
        · intro ht
          exact ⟨li, rfl, by omega, ht⟩
        · rintro ⟨li', hli', _, ht⟩
          injection hli' with h
          rw [h]
          exact ht
  · intro li hl hexp
    unfold hasValidLock
    rw [hl]
    dsimp only
    rw [if_pos hexp]
    exact ⟨rfl, lookup_erase_self _ tbl⟩

theorem validate_iff_and_evicts_witness :
    hasValidLock [("a.md", ⟨"t", 5⟩)] 10 "a.md" "t"
      = (false, eraseTbl [("a.md", ⟨"t", 5⟩)] (basePath "a.md")) ∧
    lookupTbl (eraseTbl [("a.md", ⟨"t", 5⟩)] (basePath "a.md")) (basePath "a.md") = none :=
  (validate_iff_and_evicts [("a.md", ⟨"t", 5⟩)] 10 "a.md" "t").2 ⟨"t", 5⟩ (by decide)
    (by decide)

/-- C9: at the exact expiry instant (`now = expires`), `hasValidLock` still
accepts the owner token (its test is strict `now` after `expires`), while
`handleLock` with a different proposed token already treats the lock as dead
(its test is strict `now` before `expires`) and installs a fresh lock for
the proposer, answering 201 Created. -/
theorem expiry_boundary_disagreement (tbl : LockTable) (now : Nat)
    (n t p fresh : String) (li : LockInfo)
    (hlook : lookupTbl tbl (basePath n) = some li)
    (hexp : li.expires = now) (htok : li.token = t) (hne : p ≠ t) :
    (hasValidLock tbl now n t).1 = true ∧
    handleLock tbl now n p fresh =
      (LockResp.created (if p = "" then fresh else p),
       setTbl tbl (basePath n) ⟨if p = "" then fresh else p, now + lockTTL⟩) := by
  constructor
  · unfold hasValidLock
    rw [hlook]
    dsimp only
    rw [if_neg (by omega)]
    simp [htok]
  · unfold handleLock
    rw [if_neg (basePath_ne_empty n)]
    simp only [hlook]
    rw [if_neg (by omega)]
    rfl

theorem expiry_boundary_disagreement_witness :
    (hasValidLock [("a.md", ⟨"t", 50⟩)] 50 "a.md" "t").1 = true ∧
    handleLock [("a.md", ⟨"t", 50⟩)] 50 "a.md" "p" "f" =
      (LockResp.created (if "p" = "" then "f" else "p"),
       setTbl [("a.md", ⟨"t", 50⟩)] (basePath "a.md")
         ⟨if "p" = "" then "f" else "p", 50 + lockTTL⟩) :=
  expiry_boundary_disagreement [("a.md", ⟨"t", 50⟩)] 50 "a.md" "t" "p" "f" ⟨"t", 50⟩
    (by decide) rfl rfl (by decide)

/-- C6 counterexample: a save whose incoming name contains a path separator
and whose token holds no lock at all is rejected with `invalidName`, not
with `lockDenied` — the name check runs before the lock check. -/
theorem save_invalid_name_counterexample :
    handleSave ⟨[], [], []⟩ 0 "a/b.md" "" "x" "bad" false
      = (SaveResp.invalidName, ⟨[], [], []⟩)
    ∧ (hasValidLock [] 0 "a/b.md" "bad").1 = false
    ∧ SaveResp.invalidName ≠ SaveResp.lockDenied := by decide

/-- C6 amended: in `handleSave` the name check precedes the lock check — a
save whose resolved incoming name is not a flat base name fails with
`invalidName` regardless of the lock table and token. -/
theorem save_name_check_precedes_lock (st : SaveState) (now : Nat)
    (q hdr body tok : String) (cmark : Bool)
    (h : basePath (resolveIncomingName q hdr) ≠ resolveIncomingName q hdr) :
    handleSave st now q hdr body tok cmark = (SaveResp.invalidName, st) := by
  unfold handleSave
  rw [if_pos h]

theorem save_name_check_precedes_lock_witness :
    handleSave ⟨[], [], []⟩ 0 "a/b.md" "" "x" "bad" false
      = (SaveResp.invalidName, ⟨[], [], []⟩) :=
  save_name_check_precedes_lock ⟨[], [], []⟩ 0 "a/b.md" "" "x" "bad" false (by decide)

/-- C4 counterexample: on the document `"# A\n="` both heading regexes match
starting at offset 0 (a tie), yet `extractTitle` is not empty — the setext
capture `"# A"` is returned. -/
theorem extract_tie_counterexample :
    (findATX ("# A\n=").data).map (fun r => r.1) = some 0 ∧
    (findSetext ("# A\n=").data).map (fun r => r.1) = some 0 ∧
    extractTitle "# A\n=" = "# A" ∧ extractTitle "# A\n=" ≠ "" := by decide

/-- C4 amended: when neither heading form matches, `extractTitle` is empty;
when both match and the match offsets tie, the setext form wins and its
trimmed capture is returned (not the empty string). -/
theorem extract_precedence_amended (s : String) :
    (findATX s.data = none → findSetext s.data = none → extractTitle s = "") ∧
    (∀ pa a1 a2 ps b1 b2, findATX s.data = some (pa, a1, a2) →
      findSetext s.data = some (ps, b1, b2) → pa = ps →
      extractTitle s = trimSpaceGo (sliceStr s b1 b2)) := by
  constructor
  · intro h1 h2
    unfold extractTitle
    rw [h1, h2]
  · intro pa a1 a2 ps b1 b2 h1 h2 hps
    unfold extractTitle
    rw [h1, h2]
    subst hps
    simp [Nat.lt_irrefl]

theorem extract_precedence_amended_witness :
    extractTitle "\n# A\n=" = trimSpaceGo (sliceStr "\n# A\n=" 1 4) ∧
    extractTitle "\n# A\n=" = "# A" :=
  ⟨(extract_precedence_amended "\n# A\n=").2 0 3 4 0 1 4 (by decide) (by decide) rfl,
   by decide⟩

/-- C7: `slugify` equals the spec's run-based description (lower-case,
collapse each maximal non-`[a-z0-9]` run to one hyphen, strip boundary
hyphens), empty or wholly non-alphanumeric input gives the empty slug, and
the spec's three examples hold. -/
theorem slugify_matches_spec :
    (∀ s : String, slugify s = slugifySpec s)
    ∧ (∀ s : String, (∀ c ∈ s.data, isSlugChar (charLowerGo c) = false) → slugify s = "")
    ∧ slugify "" = ""
    ∧ slugify "Hello World" = "hello-world"
    ∧ slugify "Go 1.22" = "go-1-22"
    ∧ slugify "--punctuation!!" = "punctuation" := by
  refine ⟨?_, ?_, by decide, by decide, by decide, by decide⟩
  · intro s
    unfold slugify slugifySpec
    rw [(slugLoop_collapse (s.data.map charLowerGo)).1]
  · intro s h
    unfold slugify
    cases hl : s.data.map charLowerGo with
    | nil => rfl
    | cons c rest =>
      have hall : ∀ d ∈ c :: rest, isSlugChar d = false := by
        rw [← hl]
        intro d hd
        rcases List.mem_map.mp hd with ⟨a, ha, rfl⟩
        exact h a ha
      rw [slugLoop, if_neg (by simp [hall c (List.mem_cons_self c rest)])]
      have hrest : slugLoop rest true = [] := by
        rw [(slugLoop_collapse rest).2, dropWhile_all_true
          (by intro d hd; simp [hall d (List.mem_cons_of_mem c hd)])]
        simp [collapseRuns]
      simp only [Bool.false_eq_true, if_false, hrest]
      rfl

theorem slugify_matches_spec_witness :
    slugify "!!" = "" ∧ slugify "Hello World" = slugifySpec "Hello World" :=
  ⟨slugify_matches_spec.2.1 "!!" (by decide), slugify_matches_spec.1 "Hello World"⟩

theorem ext_append_md (b : String) : extGo (b ++ ".md") = ".md" := by
  unfold extGo
  rw [String.data_append]
  have hrev : (b.data ++ (".md").data).reverse = 'd' :: 'm' :: '.' :: b.data.reverse := by
    rw [List.reverse_append]
    rfl
  rw [hrev]
  rfl

theorem trim_ext_append_md (b : String) :
    trimSuffixGo (b ++ ".md") (extGo (b ++ ".md")) = b := by
  rw [ext_append_md]
  unfold trimSuffixGo
  have hsuf : (".md" : String).data.isSuffixOf (b ++ ".md").data = true := by
    rw [List.isSuffixOf_iff_suffix, String.data_append]
    exact List.suffix_append b.data (".md" : String).data
  rw [if_pos hsuf, String.data_append]
  have hlen : (b.data ++ (".md" : String).data).length - (".md" : String).data.length
      = b.data.length := by
    rw [List.length_append]
    omega
  rw [hlen, List.take_left]

/-- C8: `htmlOutNameFor` answers `index.html` exactly on the special case
(case-insensitively `readme.md` with no case-insensitive `index.md` file on
disk); otherwise it strips the extension and appends `.html` (for a plain
`<b>.md` name the result is `<b>.html`); and the existence test means: some
non-directory entry whose lowercased name is `index.md`. -/
theorem outputNameFor_spec (fs : DirListing) (m : String) :
    (eqFoldGo m "readme.md" = true → fileExistsLower fs "index.md" = false →
      htmlOutNameFor fs m = "index.html")
    ∧ ((eqFoldGo m "readme.md" = false ∨ fileExistsLower fs "index.md" = true) →
      htmlOutNameFor fs m = trimSuffixGo m (extGo m) ++ ".html")
    ∧ (∀ b : String, trimSuffixGo (b ++ ".md") (extGo (b ++ ".md")) ++ ".html"
        = b ++ ".html")
    ∧ (fileExistsLower fs "index.md" = true ↔
      ∃ e ∈ fs, e.2 = false ∧ toLowerStr e.1 = "index.md") := by
  refine ⟨?_, ?_, ?_, ?_⟩
  · intro h1 h2
    unfold htmlOutNameFor
    rw [if_pos (by simp [h1, h2])]
  · intro h
    unfold htmlOutNameFor
    rcases h with h | h
    · rw [if_neg (by simp [h])]
    · rw [if_neg (by simp [h])]
  · intro b
    rw [trim_ext_append_md]
  · unfold fileExistsLower
    have hix : toLowerStr "index.md" = "index.md" := rfl
    rw [hix]
    simp only [List.any_eq_true, Bool.and_eq_true, Bool.not_eq_true', beq_iff_eq]

theorem outputNameFor_spec_witness :
    htmlOutNameFor [] "readme.md" = "index.html" ∧
    htmlOutNameFor [("index.md", false)] "readme.md" = "readme.html" := by
  constructor
  · exact (outputNameFor_spec [] "readme.md").1 (by decide) (by decide)
  · have h := (outputNameFor_spec [("index.md", false)] "readme.md").2.1
      (Or.inr (by decide))
    rw [h]
    decide

/-- C5: `uniqueAvailableName` returns a desired base name unchanged when no
entry of that name exists; otherwise it returns the candidate with suffix
`-i` inserted before the extension for the least `i ≥ 1` whose name is
free; its result never names an existing entry; and consequently in the
save pipeline's resolution step (main.go lines 126-130) a final name that
differs from the incoming name never names an existing file. -/
theorem makeUnique_never_overwrites :
    (∀ (fs : DirListing) (d : String), basePath d = d → statExists fs d = false →
      uniqueAvailableName fs d = d)
    ∧ (∀ (fs : DirListing) (d : String), basePath d = d → statExists fs d = true →
      ∃ i, 1 ≤ i ∧ uniqueAvailableName fs d = candName d i ∧
        statExists fs (candName d i) = false ∧
        ∀ j, 1 ≤ j → j < i → statExists fs (candName d j) = true)
    ∧ (∀ (fs : DirListing) (p : String), statExists fs (uniqueAvailableName fs p) = false)
    ∧ (∀ (fs : DirListing) (name body : String),
        (if decideFilenameFromContent name body ≠ name then
          uniqueAvailableName fs (decideFilenameFromContent name body)
        else decideFilenameFromContent name body) ≠ name →
        statExists fs (if decideFilenameFromContent name body ≠ name then
          uniqueAvailableName fs (decideFilenameFromContent name body)
        else decideFilenameFromContent name body) = false) := by
  refine ⟨?_, ?_, unique_not_exists, ?_⟩
  · intro fs d hbase hex
    unfold uniqueAvailableName
    rw [hbase, if_neg (by simp [hex])]
  · intro fs d hbase hex
    unfold uniqueAvailableName
    rw [hbase, if_pos hex]
    have hfree : ∃ j, 1 ≤ j ∧ j < 1 + (fs.length + 1) ∧
        statExists fs (candName d j) = false := by
      rcases exists_free_cand fs d with ⟨j, h1, h2, h3⟩
      exact ⟨j, h1, by omega, h3⟩
    rcases uniqueLoop_finds fs d (fs.length + 1) 1 hfree with ⟨k, hk1, hk2, hk3, hk4⟩
    exact ⟨k, hk1, hk2, hk3, hk4⟩
  · intro fs name body hne
    by_cases hd : decideFilenameFromContent name body ≠ name
    · rw [if_pos hd]
      exact unique_not_exists fs (decideFilenameFromContent name body)
    · rw [if_neg hd] at hne
      exact absurd hne hd

theorem makeUnique_never_overwrites_witness :
    uniqueAvailableName [] "my-note.md" = "my-note.md" ∧
    ∃ i, 1 ≤ i ∧ uniqueAvailableName [("my-note.md", false)] "my-note.md"
        = candName "my-note.md" i ∧
      statExists [("my-note.md", false)] (candName "my-note.md" i) = false ∧
      ∀ j, 1 ≤ j → j < i →
        statExists [("my-note.md", false)] (candName "my-note.md" j) = true :=
  ⟨makeUnique_never_overwrites.1 [] "my-note.md" (by decide) (by decide),
   makeUnique_never_overwrites.2.1 [("my-note.md", false)] "my-note.md" (by decide)
     (by decide)⟩

/-- C10: every lock-registry operation first normalizes its name arguments
with `filepath.Base`, so two different paths with equal base names drive
each operation identically, and each operation preserves the invariant that
every key stored in the table is a flat base name. -/
theorem registry_base_name_invariant :
    (∀ (tbl : LockTable) (now : Nat) (p q tok fresh : String), basePath p = basePath q →
      handleLock tbl now p tok fresh = handleLock tbl now q tok fresh ∧
      handleUnlock tbl p tok = handleUnlock tbl q tok ∧
      hasValidLock tbl now p tok = hasValidLock tbl now q tok ∧
      (∀ r, transferLock tbl now p r tok = transferLock tbl now q r tok ∧
            transferLock tbl now r p tok = transferLock tbl now r q tok))
    ∧ (∀ (tbl : LockTable) (now : Nat) (q tok fresh : String), keysNormalized tbl →
      keysNormalized (handleLock tbl now q tok fresh).2 ∧
      keysNormalized (handleUnlock tbl q tok).2 ∧
      keysNormalized (hasValidLock tbl now q tok).2 ∧
      (∀ r, keysNormalized (transferLock tbl now q r tok))) := by
  constructor
  · intro tbl now p q tok fresh h
    refine ⟨?_, ?_, ?_, fun r => ⟨?_, ?_⟩⟩
    · unfold handleLock
      rw [h]
    · unfold handleUnlock
      rw [h]
    · unfold hasValidLock
      rw [h]
    · unfold transferLock
      rw [h]
    · unfold transferLock
      rw [h]
  · intro tbl now q tok fresh h
    refine ⟨?_, ?_, ?_, fun r => ?_⟩
    · unfold handleLock acquireNew
      repeat' split
      all_goals dsimp only
      all_goals first
        | exact h
        | exact keysNormalized_set h (basePath_idem _)
    · unfold handleUnlock
      repeat' split
      all_goals dsimp only
      all_goals first
        | exact h
        | exact keysNormalized_erase h
    · unfold hasValidLock
      repeat' split
      all_goals dsimp only
      all_goals first
        | exact h
        | exact keysNormalized_erase h
    · unfold transferLock
      repeat' split
      all_goals first
        | exact h
        | exact keysNormalized_set (keysNormalized_erase h) (basePath_idem _)

theorem registry_base_name_invariant_witness :
    handleLock [] 0 "a/b.md" "t" "f" = handleLock [] 0 "b.md" "t" "f" ∧
    keysNormalized (handleLock [] 0 "b.md" "t" "f").2 :=
  ⟨(registry_base_name_invariant.1 [] 0 "a/b.md" "b.md" "t" "f" (by decide)).1,
   (registry_base_name_invariant.2 [] 0 "b.md" "t" "f" (by intro e he; simp at he)).1⟩

/-- C1 (code-bug evidence): a save under a valid lock that renames
`note.md` to `my-note.md` succeeds but leaves the lock table untouched —
the lock stays keyed to `note.md`, so immediately after the save the token
does not validate against the new name and still validates against the old
one; the last conjunct shows what the never-invoked `transferLock` would
have produced had `handleSave` called it. -/
theorem save_rename_leaves_lock_behind :
    handleSave ⟨[("note.md", false)], [], [("note.md", ⟨"t", 100⟩)]⟩ 50
        "note.md" "" "# My Note\nbody" "t" false
      = (SaveResp.noContent "my-note.md",
         ⟨[("my-note.md", false)], [], [("note.md", ⟨"t", 100⟩)]⟩)
    ∧ (hasValidLock [("note.md", ⟨"t", 100⟩)] 50 "my-note.md" "t").1 = false
    ∧ (hasValidLock [("note.md", ⟨"t", 100⟩)] 50 "note.md" "t").1 = true
    ∧ transferLock [("note.md", ⟨"t", 100⟩)] 50 "note.md" "my-note.md" "t"
      = [("my-note.md", ⟨"t", 50 + lockTTL⟩)] := by
  refine ⟨rfl, rfl, rfl, rfl⟩

end Minimark
